import Mathlib

/-!
Verification of the point-in-polyhedron ray-cast core
(`Point_inside_vertical_ray_cast.h`), the classification scorer
(`Classification/Evaluation.h`) and the LAS point-cloud ingester
(`read_las_point_set.h`), via a shallow embedding of the C++ sources.

Kernel numeric values are modelled by `ℚ` (the algorithm is generic over an
exact kernel); machine counters by `ℕ`.  The AABB tree is opaque to the core:
it is modelled by its bounding box together with the traversal-status function
the core observes.
-/

namespace CGALSpec

/-- `CGAL::Bounded_side` enumeration. -/
inductive BoundedSide where
  | ON_BOUNDED_SIDE
  | ON_UNBOUNDED_SIDE
  | ON_BOUNDARY
deriving DecidableEq, Repr

open BoundedSide

/-- A 3D point of the kernel: `Kernel::Point_3` with exact coordinates. -/
structure Point where
  x : ℚ
  y : ℚ
  z : ℚ
deriving DecidableEq, Repr

/-- A 3D vector of the kernel (`Kernel::Vector_3`). -/
structure Vec where
  dx : ℚ
  dy : ℚ
  dz : ℚ
deriving DecidableEq, Repr

/-- A ray: origin plus direction, as built by `ray_functor(point, vector)`. -/
structure Ray where
  origin : Point
  dir : Vec
deriving DecidableEq, Repr

/-- The bounding box of the tree (`Traits::Bounding_box`): six scalars. -/
structure Bbox where
  xmin : ℚ
  xmax : ℚ
  ymin : ℚ
  ymax : ℚ
  zmin : ℚ
  zmax : ℚ
deriving DecidableEq, Repr

/-- The traversal status the core reads back from
`Ray_3_Triangle_3_traversal_traits`: a
`std::pair<boost::logic::tribool, std::size_t>`.  The tribool is modelled by
`Option Bool` (`none` = `indeterminate`); the second component is the
crossing count. -/
def TraversalStatus : Type := Option Bool × ℕ

/-- The AABB tree as seen by `Point_inside_vertical_ray_cast`: its bounding
box, and for each (`ray_is_vertical` template flag, ray) the status that
`tree.traversal(ray, traversal_traits)` leaves in `status`.  The tree is
read-only and never inspected further by the core. -/
structure AABBTree where
  bbox : Bbox
  status : Bool → Ray → TraversalStatus

/-- The fixed seed constant of `Point_inside_vertical_ray_cast`
(`const static unsigned int seed = 1340818006`). -/
def seed : ℕ := 1340818006

/-- `is_inside_ray_tree_traversal`, after the tree traversal has produced
`status`: if the tribool is determinate and true, the point is inside iff the
crossing count is odd (`(status.second & 1) == 1`); if determinate and false,
the query point is on a facet; if indeterminate, no verdict. -/
def is_inside_ray_tree_traversal (status : TraversalStatus) :
    Option BoundedSide :=
  match status.1 with
  | some true =>
      some (if status.2 % 2 = 1 then ON_BOUNDED_SIDE else ON_UNBOUNDED_SIDE)
  | some false => some ON_BOUNDARY
  | none => none

/-- The bbox rejection test of `operator()`: true iff the point is outside
the box on some axis (all comparisons strict, as in the source). -/
def outsideBbox (p : Point) (b : Bbox) : Bool :=
  p.x < b.xmin || p.x > b.xmax || p.y < b.ymin || p.y > b.ymax ||
    p.z < b.zmin || p.z > b.zmax

/-- Direction of the initial vertical ray:
`vector_functor(0,0, (2*point.z() < zmax+zmin ? -1 : 1))`. -/
def verticalDir (p : Point) (b : Bbox) : Vec :=
  ⟨0, 0, if 2 * p.z < b.zmax + b.zmin then -1 else 1⟩

/-- Outcome of the initial vertical traversal
(`is_inside_ray_tree_traversal<true>(query, tree)`). -/
def verticalRes (tree : AABBTree) (p : Point) : Option BoundedSide :=
  is_inside_ray_tree_traversal
    (tree.status true ⟨p, verticalDir p tree.bbox⟩)

/-- A random source: `rnd s k` is the `k`-th point drawn from
`Random_points_on_sphere_3` over a `CGAL::Random` generator constructed with
seed `s`.  The generator's internals live outside the sampled sources, so the
stream is a parameter; the core only fixes which seed and which indices it
consumes. -/
def RandomSource : Type := ℕ → ℕ → Vec

/-- The `k`-th retry direction a call uses: the generator is constructed
inside `operator()` with the constant `seed`, so every call draws
`rnd seed 0, rnd seed 1, ...` from the start of that stream. -/
def retryDir (rnd : RandomSource) (k : ℕ) : Vec := rnd seed k

/-- Outcome of the `k`-th retry traversal
(`is_inside_ray_tree_traversal<false>` on the ray towards the `k`-th random
point). -/
def retryRes (tree : AABBTree) (rnd : RandomSource) (p : Point) (k : ℕ) :
    Option BoundedSide :=
  is_inside_ray_tree_traversal (tree.status false ⟨p, retryDir rnd k⟩)

/-- The `do { ... } while (!res)` retry loop, instrumented: starting at draw
index `k` with `fuel` iterations allowed, returns the verdict (if reached
within `fuel` traversals) and the list of traversals performed, each as
(`ray_is_vertical` flag, ray).  The C++ loop has no fuel — `fuel` only
truncates the unbounded loop so the model is total; the theorems quantify
over it. -/
def retryLoop (tree : AABBTree) (rnd : RandomSource) (p : Point) :
    ℕ → ℕ → Option BoundedSide × List (Bool × Ray)
  | 0, _ => (none, [])
  | fuel + 1, k =>
      match retryRes tree rnd p k with
      | some r => (some r, [(false, ⟨p, retryDir rnd k⟩)])
      | none =>
          let rest := retryLoop tree rnd p fuel (k + 1)
          (rest.1, (false, ⟨p, retryDir rnd k⟩) :: rest.2)

/-- `Point_inside_vertical_ray_cast::operator()`, instrumented: the verdict
(`none` when `fuel` truncates the unbounded retry loop before a determinate
status) and the list of tree traversals this call performs. -/
def classifyT (tree : AABBTree) (rnd : RandomSource) (p : Point)
    (fuel : ℕ) : Option BoundedSide × List (Bool × Ray) :=
  if outsideBbox p tree.bbox then (some ON_UNBOUNDED_SIDE, [])
  else
    let q : Ray := ⟨p, verticalDir p tree.bbox⟩
    match verticalRes tree p with
    | some r => (some r, [(true, q)])
    | none =>
        let rest := retryLoop tree rnd p fuel 0
        (rest.1, (true, q) :: rest.2)

/-- The verdict of `operator()` (first component of the instrumented run). -/
def classify (tree : AABBTree) (rnd : RandomSource) (p : Point)
    (fuel : ℕ) : Option BoundedSide :=
  (classifyT tree rnd p fuel).1

/-- The retry directions of an instrumented run: the direction components of
the non-vertical traversals. -/
def retryDirsOf (t : List (Bool × Ray)) : List Vec :=
  (t.filter fun e => !e.1).map fun e => e.2.dir

/-- The retry-direction trace of each query of a run, from the source: each
call of `operator()` constructs its own `CGAL::Random rg(seed)`, so each
query's draws restart at index 0 of the stream for the constant seed. -/
def runTraces (rnd : RandomSource) (fuel : ℕ)
    (queries : List (AABBTree × Point)) : List (List Vec) :=
  queries.map fun q => retryDirsOf (classifyT q.1 rnd q.2 fuel).2

/-- Modelled from the spec: §4.4 and §5 describe the pseudo-random source as
"process-wide, fixed-seed state" seeded once and "not re-seeded per query"
(the generator internals are outside the sampled sources).  Under that
reading a query finding the generator at stream position `c` draws
`rnd seed c, rnd seed (c+1), ...` and leaves the generator advanced by the
number of draws it consumed.  This is `operator()` with the retry loop
started at position `c` instead of 0, returning the new position. -/
def classifyShared (tree : AABBTree) (rnd : RandomSource) (p : Point)
    (fuel : ℕ) (c : ℕ) : (Option BoundedSide × List (Bool × Ray)) × ℕ :=
  if outsideBbox p tree.bbox then ((some ON_UNBOUNDED_SIDE, []), c)
  else
    let q : Ray := ⟨p, verticalDir p tree.bbox⟩
    match is_inside_ray_tree_traversal (tree.status true q) with
    | some r => ((some r, [(true, q)]), c)
    | none =>
        let rest := retryLoop tree rnd p fuel c
        ((rest.1, (true, q) :: rest.2), c + (retryDirsOf rest.2).length)

/-- Modelled from the spec: the retry-direction trace of each query of a run
under the shared, seeded-once generator of §4.4/§5 — each query continues the
stream where the previous query left it. -/
def runTracesShared (rnd : RandomSource) (fuel : ℕ) :
    ℕ → List (AABBTree × Point) → List (List Vec)
  | _, [] => []
  | c, q :: qs =>
      let r := classifyShared q.1 rnd q.2 fuel c
      retryDirsOf r.1.2 :: runTracesShared rnd fuel r.2 qs

/-! ## Classification scorer (`CGAL::Classification::Evaluation`) -/

/-- The values of C++ `float` expressions this development distinguishes:
quiet NaN, infinity, or an exact value.  The theorems below only discriminate
NaN-ness and the exact values 0 and 1, which binary floats represent exactly
(`x / x` is exactly `1.0f` for finite non-zero `x`, `0 / t` is exactly
`0.0f` for `t > 0`, and `0 / 0.f` is NaN). -/
inductive FloatVal where
  | nan
  | inf
  | val (q : ℚ)
deriving DecidableEq, Repr

/-- Division `n / float(d)` of non-negative integer counters as it behaves in
IEEE float: `0/0` is NaN, `n/0` with `n > 0` is `+inf`, otherwise the exact
quotient. -/
def fdiv (n d : ℕ) : FloatVal :=
  if d = 0 then (if n = 0 then FloatVal.nan else FloatVal.inf)
  else FloatVal.val ((n : ℚ) / (d : ℚ))

/-- The confusion matrix `m_confusion`: entry `(i, j)` counts items predicted
`i` whose ground truth is `j`.  `init()` sizes it `nl × nl` and zeroes it; it
is modelled as a total function, read only at indices below `nl` by the
statistics below (the access-list model `appendAccesses` tracks which cells
`append` writes). -/
def Conf : Type := ℕ → ℕ → ℕ

/-- The matrix after `init()`: all zeroes. -/
def initConf : Conf := fun _ _ => 0

/-- `++ m_confusion[res][gt]`. -/
def bump (conf : Conf) (r g : ℕ) : Conf :=
  fun i j => if i = r ∧ j = g then conf i j + 1 else conf i j

/-- `Evaluation::append`: walk the two index ranges in step; skip a pair when
either index is the sentinel `-1`, else increment
`m_confusion[std::size_t(res)][std::size_t(gt)]`. -/
def appendConf (conf : Conf) : List ℤ → List ℤ → Conf
  | g :: gs, r :: rs =>
      if g = -1 ∨ r = -1 then appendConf conf gs rs
      else appendConf (bump conf r.toNat g.toNat) gs rs
  | _, _ => conf

/-- The confusion-matrix accesses `append` performs, in order: the pair
`(res, gt)` of raw (un-checked) indices for every position where neither
index is `-1`.  No bounds check is applied before the access. -/
def appendAccesses : List ℤ → List ℤ → List (ℤ × ℤ)
  | g :: gs, r :: rs =>
      if g = -1 ∨ r = -1 then appendAccesses gs rs
      else (r, g) :: appendAccesses gs rs
  | _, _ => []

/-- `label_has_ground_truth(label_idx)`: some row `i < nl` has
`m_confusion[i][label_idx] != 0`. -/
def label_has_ground_truth (nl : ℕ) (conf : Conf) (idx : ℕ) : Bool :=
  (List.range nl).any fun i => conf i idx != 0

/-- Row sum of `precision`: `total += m_confusion[idx][i]`. -/
def rowSum (nl : ℕ) (conf : Conf) (idx : ℕ) : ℕ :=
  ∑ i in Finset.range nl, conf idx i

/-- Column sum of `recall`: `total += m_confusion[i][idx]`. -/
def colSum (nl : ℕ) (conf : Conf) (idx : ℕ) : ℕ :=
  ∑ i in Finset.range nl, conf i idx

/-- `Evaluation::precision`: NaN if the label has no ground truth, `0.f` if
the row total is zero, else true positives over the row total. -/
def precision (nl : ℕ) (conf : Conf) (idx : ℕ) : FloatVal :=
  if label_has_ground_truth nl conf idx = false then FloatVal.nan
  else if rowSum nl conf idx = 0 then FloatVal.val 0
  else fdiv (conf idx idx) (rowSum nl conf idx)

/-- `Evaluation::recall`: NaN if the label has no ground truth, else true
positives over the column total (no zero-total guard in the source). -/
def «recall» (nl : ℕ) (conf : Conf) (idx : ℕ) : FloatVal :=
  if label_has_ground_truth nl conf idx = false then FloatVal.nan
  else fdiv (conf idx idx) (colSum nl conf idx)

/-- The IoU denominator: `total += m_confusion[i][idx]` for all `i`, plus
`m_confusion[idx][i]` for `i != idx`. -/
def iouTotal (nl : ℕ) (conf : Conf) (idx : ℕ) : ℕ :=
  ∑ i in Finset.range nl, (conf i idx + if i ≠ idx then conf idx i else 0)

/-- `Evaluation::intersection_over_union`: true positives over the IoU
denominator, with no `label_has_ground_truth` guard. -/
def intersection_over_union (nl : ℕ) (conf : Conf) (idx : ℕ) : FloatVal :=
  fdiv (conf idx idx) (iouTotal nl conf idx)

/-- Diagonal total of `accuracy`: `true_positives += m_confusion[i][i]`. -/
def truePositives (nl : ℕ) (conf : Conf) : ℕ :=
  ∑ i in Finset.range nl, conf i i

/-- Grand total of `accuracy`: all matrix entries. -/
def totalItems (nl : ℕ) (conf : Conf) : ℕ :=
  ∑ i in Finset.range nl, ∑ j in Finset.range nl, conf i j

/-- `Evaluation::accuracy`: `true_positives / float(total)`. -/
def accuracy (nl : ℕ) (conf : Conf) : FloatVal :=
  fdiv (truePositives nl conf) (totalItems nl conf)

/-! ## LAS point-cloud ingester (`read_las_point_set.h`) -/

/-- One point delivered by the external LAS reader: position, return/echo
number and 16-bit RGB color, as read back by `GetReturnNumber()` and
`GetColor()`. -/
structure LasPoint where
  x : ℚ
  y : ℚ
  z : ℚ
  returnNumber : ℕ
  red : ℕ
  green : ℕ
  blue : ℕ
deriving DecidableEq, Repr

/-- The value stored in the `unsigned char` "echo" channel. -/
def storedEcho (p : LasPoint) : ℕ := p.returnNumber % 256

/-- The value stored in the `unsigned char` "red" channel:
`c.GetRed() >> 8`, truncated to `unsigned char`. -/
def storedRed (p : LasPoint) : ℕ := p.red / 256 % 256

/-- The value stored in the "green" channel: `c.GetGreen() >> 8`. -/
def storedGreen (p : LasPoint) : ℕ := p.green / 256 % 256

/-- The value stored in the "blue" channel: `c.GetBlue() >> 8`. -/
def storedBlue (p : LasPoint) : ℕ := p.blue / 256 % 256

/-- The resulting point set: the inserted positions, which property channels
survive, and the channel contents. -/
structure PointSet where
  pts : List (ℚ × ℚ × ℚ)
  hasEcho : Bool
  hasRed : Bool
  hasGreen : Bool
  hasBlue : Bool
  echoVals : List ℕ
  redVals : List ℕ
  greenVals : List ℕ
  blueVals : List ℕ
deriving DecidableEq, Repr

/-- The flag loop of `read_las_point_set`: starting from
`remove_echo = remove_colors = true`, clear `remove_echo` at a point with
non-zero echo, clear `remove_colors` at a point with any non-zero color
component, and break once both are cleared. -/
def flagsLoop : List LasPoint → Bool → Bool → Bool × Bool
  | [], re, rc => (re, rc)
  | p :: ps, re, rc =>
      let re2 := if storedEcho p ≠ 0 then false else re
      let rc2 := if storedRed p ≠ 0 ∨ storedGreen p ≠ 0 ∨ storedBlue p ≠ 0
                 then false else rc
      if re2 = false ∧ rc2 = false then (re2, rc2)
      else flagsLoop ps re2 rc2

/-- `read_las_point_set`: insert every point the reader delivers with its
echo and shifted colors, then remove the echo channel if `remove_echo` held
and all three color channels if `remove_colors` held; return `true`. -/
def read_las_point_set (input : List LasPoint) : PointSet × Bool :=
  let flags := flagsLoop input true true
  ({ pts := input.map fun p => (p.x, p.y, p.z)
     hasEcho := !flags.1
     hasRed := !flags.2
     hasGreen := !flags.2
     hasBlue := !flags.2
     echoVals := input.map storedEcho
     redVals := input.map storedRed
     greenVals := input.map storedGreen
     blueVals := input.map storedBlue }, true)

/-! ## Concrete fixtures used by counterexamples and witnesses -/

/-- A unit bounding box `[0,1]³`. -/
def exBbox : Bbox := ⟨0, 1, 0, 1, 0, 1⟩

/-- The query point `(0,0,0)` (inside `exBbox`). -/
def exP : Point := ⟨0, 0, 0⟩

/-- A concrete random stream: the `k`-th draw is `(k, 0, 0)`. -/
def exRnd : RandomSource := fun _ k => ⟨(k : ℚ), 0, 0⟩

/-- A tree on which the vertical traversal is indeterminate and a retry is
determinate (crossing count 1) exactly when its direction has non-zero `x`
component. -/
def exTree : AABBTree :=
  ⟨exBbox, fun b r =>
    if b then (none, 0)
    else if r.dir.dx = 0 then (none, 0) else (some true, 1)⟩

/-- A tree on which the vertical traversal is indeterminate and every retry
is determinate with crossing count 0. -/
def exTree2 : AABBTree :=
  ⟨exBbox, fun b _ => if b then (none, 0) else (some true, 0)⟩

/-- One appended item with ground truth label 1 predicted as label 0
(`m_confusion[0][1] = 1`). -/
def exConf : Conf := appendConf initConf [1] [0]

/-- A LAS point whose stored echo, red and blue values are 0 but whose
stored green value is 1 (`GetGreen() = 256`). -/
def exLas : LasPoint := ⟨0, 0, 0, 0, 0, 256, 0⟩

/-! ## Helper lemmas -/

/-- The flag loop computes exactly the two "all values zero" tests; the
early break does not change the outcome. -/
theorem flagsLoop_eq (l : List LasPoint) (re rc : Bool) :
    flagsLoop l re rc =
      (re && l.all fun p => storedEcho p == 0,
       rc && l.all fun p =>
         storedRed p == 0 && (storedGreen p == 0 && storedBlue p == 0)) := by
  induction l generalizing re rc with
  | nil => simp [flagsLoop]
  | cons p ps ih =>
      by_cases hE : storedEcho p = 0 <;>
        by_cases hR : storedRed p = 0 <;>
          by_cases hG : storedGreen p = 0 <;>
            by_cases hB : storedBlue p = 0 <;>
              cases re <;> cases rc <;>
                simp [flagsLoop, hE, hR, hG, hB, ih]

/-! ## Claims -/

/-- Claim C1: the classifier maps a determinate traversal status to the
verdict by the parity rule: on-facet gives `ON_BOUNDARY`, a countable
crossing status gives `ON_BOUNDED_SIDE` for odd count and
`ON_UNBOUNDED_SIDE` for even count. -/
theorem classifier_parity_rule :
    (∀ c : ℕ,
      is_inside_ray_tree_traversal (some false, c) = some ON_BOUNDARY) ∧
    (∀ c : ℕ, Odd c →
      is_inside_ray_tree_traversal (some true, c) = some ON_BOUNDED_SIDE) ∧
    (∀ c : ℕ, Even c →
      is_inside_ray_tree_traversal (some true, c) = some ON_UNBOUNDED_SIDE) := by
  refine ⟨fun c => rfl, fun c hc => ?_, fun c hc => ?_⟩
  · unfold is_inside_ray_tree_traversal
    simp [Nat.odd_iff.mp hc]
  · unfold is_inside_ray_tree_traversal
    simp [Nat.even_iff.mp hc]

/-- Witness for C1 at crossing counts 5, 3 and 4. -/
theorem classifier_parity_rule_witness :
    is_inside_ray_tree_traversal (some false, 5) = some ON_BOUNDARY ∧
    is_inside_ray_tree_traversal (some true, 3) = some ON_BOUNDED_SIDE ∧
    is_inside_ray_tree_traversal (some true, 4) = some ON_UNBOUNDED_SIDE :=
  ⟨classifier_parity_rule.1 5,
   classifier_parity_rule.2.1 3 (by decide),
   classifier_parity_rule.2.2 4 (by decide)⟩

/-- Claim C3: a query point strictly outside the box on some axis is
classified `ON_UNBOUNDED_SIDE` at once, with no tree traversal performed
(empty traversal trace, any fuel); and the box test uses inclusive bounds,
so a point exactly on a box face passes it. -/
theorem bbox_gate_rejects_outside :
    (∀ (tree : AABBTree) (rnd : RandomSource) (p : Point) (fuel : ℕ),
        (p.x < tree.bbox.xmin ∨ p.x > tree.bbox.xmax ∨
         p.y < tree.bbox.ymin ∨ p.y > tree.bbox.ymax ∨
         p.z < tree.bbox.zmin ∨ p.z > tree.bbox.zmax) →
        classifyT tree rnd p fuel = (some ON_UNBOUNDED_SIDE, [])) ∧
    (∀ (p : Point) (b : Bbox),
        b.xmin ≤ p.x → p.x ≤ b.xmax → b.ymin ≤ p.y → p.y ≤ b.ymax →
        b.zmin ≤ p.z → p.z ≤ b.zmax → outsideBbox p b = false) := by
  constructor
  · intro tree rnd p fuel h
    have hb : outsideBbox p tree.bbox = true := by
      simp only [outsideBbox, Bool.or_eq_true, decide_eq_true_eq]
      tauto
    simp [classifyT, hb]
  · intro p b h1 h2 h3 h4 h5 h6
    simp only [outsideBbox, Bool.or_eq_false_iff, decide_eq_false_iff_not,
      not_lt, gt_iff_lt]
    exact ⟨⟨⟨⟨⟨h1, h2⟩, h3⟩, h4⟩, h5⟩, h6⟩

/-- Witness for C3: the point `(10,10,10)` is rejected by the unit-box
gate and the point `(0,0,0)` on the corner of the unit box passes the
test. -/
theorem bbox_gate_rejects_outside_witness :
    classifyT exTree exRnd ⟨10, 10, 10⟩ 0 = (some ON_UNBOUNDED_SIDE, []) ∧
    outsideBbox exP exBbox = false :=
  ⟨bbox_gate_rejects_outside.1 exTree exRnd ⟨10, 10, 10⟩ 0
      (Or.inr (Or.inl (by norm_num [exTree, exBbox]))),
   bbox_gate_rejects_outside.2 exP exBbox (by norm_num [exP, exBbox])
      (by norm_num [exP, exBbox]) (by norm_num [exP, exBbox])
      (by norm_num [exP, exBbox]) (by norm_num [exP, exBbox])
      (by norm_num [exP, exBbox])⟩

/-- Claim C4: for a point inside the box the initial probe is the vertical
ray from the point, its direction `(0,0,-1)` iff the point's `z` is strictly
below the box's `z` midpoint and `(0,0,1)` otherwise — in particular upward
when `z` equals the midpoint — and that ray is the first traversal the call
performs. -/
theorem initial_ray_vertical :
    (∀ (p : Point) (b : Bbox),
        verticalDir p b =
          if p.z < (b.zmin + b.zmax) / 2 then ⟨0, 0, -1⟩ else ⟨0, 0, 1⟩) ∧
    (∀ (p : Point) (b : Bbox), p.z = (b.zmin + b.zmax) / 2 →
        verticalDir p b = ⟨0, 0, 1⟩) ∧
    (∀ (tree : AABBTree) (rnd : RandomSource) (p : Point) (fuel : ℕ),
        outsideBbox p tree.bbox = false →
        (classifyT tree rnd p fuel).2.head? =
          some (true, ⟨p, verticalDir p tree.bbox⟩)) := by
  refine ⟨fun p b => ?_, fun p b hz => ?_, fun tree rnd p fuel h => ?_⟩
  · by_cases hc : p.z < (b.zmin + b.zmax) / 2
    · rw [if_pos hc]
      unfold verticalDir
      rw [if_pos (by linarith)]
    · rw [if_neg hc]
      unfold verticalDir
      rw [if_neg (fun h2 => hc (by linarith))]
  · unfold verticalDir
    rw [if_neg (by rw [hz]; intro h2; linarith)]
  · cases hv : verticalRes tree p with
    | none => simp [classifyT, h, hv]
    | some r => simp [classifyT, h, hv]

/-- Witness for C4: a point at the `z` midpoint of a box gets the upward
direction, and a call inside the box starts with the vertical ray. -/
theorem initial_ray_vertical_witness :
    verticalDir ⟨0, 0, 1⟩ ⟨0, 1, 0, 1, 0, 2⟩ = ⟨0, 0, 1⟩ ∧
    (classifyT exTree exRnd exP 2).2.head? =
      some (true, ⟨exP, verticalDir exP exTree.bbox⟩) :=
  ⟨initial_ray_vertical.2.1 ⟨0, 0, 1⟩ ⟨0, 1, 0, 1, 0, 2⟩ (by norm_num),
   initial_ray_vertical.2.2 exTree exRnd exP 2 (by decide)⟩

/-- Counterexample to claim C8 as stated: on the single-point input `exLas`
the "red" channel's stored values are uniformly 0, yet the channel is kept
(because the stored green value is non-zero). -/
theorem las_uniform_zero_red_kept :
    (read_las_point_set [exLas]).1.hasRed = true ∧
    (read_las_point_set [exLas]).1.redVals = [0] ∧
    (read_las_point_set [exLas]).1.greenVals = [1] := by
  decide

/-- Claim C8 (amended): the echo channel is dropped iff its stored values
are uniformly zero; the red, green and blue channels are dropped together,
iff all three are uniformly zero across the input — one non-zero color
component keeps all three color channels. -/
theorem las_channel_dropping :
    ∀ input : List LasPoint,
      ((read_las_point_set input).1.hasEcho = true ↔
        ∃ p ∈ input, storedEcho p ≠ 0) ∧
      ((read_las_point_set input).1.hasRed = true ↔
        ∃ p ∈ input,
          storedRed p ≠ 0 ∨ storedGreen p ≠ 0 ∨ storedBlue p ≠ 0) ∧
      (read_las_point_set input).1.hasGreen =
        (read_las_point_set input).1.hasRed ∧
      (read_las_point_set input).1.hasBlue =
        (read_las_point_set input).1.hasRed := by
  intro input
  refine ⟨?_, ?_, ?_, ?_⟩ <;>
    simp only [read_las_point_set, flagsLoop_eq, Bool.true_and]
  · simp only [Bool.not_eq_true', List.all_eq_false, beq_iff_eq]
  · simp only [Bool.not_eq_true', List.all_eq_false, Bool.and_eq_true,
      beq_iff_eq]
    constructor
    · rintro ⟨p, hp, hne⟩
      exact ⟨p, hp, by tauto⟩
    · rintro ⟨p, hp, hne⟩
      exact ⟨p, hp, by tauto⟩

/-- Unfolding `classify` when the bbox test passes and the vertical
traversal is indeterminate: the verdict is that of the retry loop. -/
theorem classify_eq_retryLoop (tree : AABBTree) (rnd : RandomSource)
    (p : Point) (fuel : ℕ) (hout : outsideBbox p tree.bbox = false)
    (hv : verticalRes tree p = none) :
    classify tree rnd p fuel = (retryLoop tree rnd p fuel 0).1 := by
  simp [classify, classifyT, hout, hv]

/-- The retry loop, started at index `s` with enough fuel, returns the
verdict of the first determinate retry. -/
theorem retryLoop_first_determinate (tree : AABBTree) (rnd : RandomSource)
    (p : Point) (k0 : ℕ) (r : BoundedSide) :
    ∀ fuel s, s ≤ k0 →
      (∀ k, s ≤ k → k < k0 → retryRes tree rnd p k = none) →
      retryRes tree rnd p k0 = some r → k0 - s < fuel →
      (retryLoop tree rnd p fuel s).1 = some r := by
  intro fuel
  induction fuel with
  | zero => intro s _ _ _ h; omega
  | succ n ih =>
      intro s hs hnone hdet hlt
      by_cases he : s = k0
      · subst he
        simp [retryLoop, hdet]
      · have hres : retryRes tree rnd p s = none :=
          hnone s le_rfl (by omega)
        simp only [retryLoop, hres]
        exact ih (s + 1) (by omega)
          (fun k hk1 hk2 => hnone k (by omega) hk2) hdet (by omega)

/-- The retry loop returns no verdict while every tried index is
indeterminate. -/
theorem retryLoop_all_indeterminate (tree : AABBTree) (rnd : RandomSource)
    (p : Point) :
    ∀ fuel s,
      (∀ k, s ≤ k → k < s + fuel → retryRes tree rnd p k = none) →
      (retryLoop tree rnd p fuel s).1 = none := by
  intro fuel
  induction fuel with
  | zero => intro s _; rfl
  | succ n ih =>
      intro s h
      have hres : retryRes tree rnd p s = none := h s le_rfl (by omega)
      simp only [retryLoop, hres]
      exact ih (s + 1) (fun k hk1 hk2 => h k (by omega) (by omega))

/-- Claim C5: when the vertical probe is indeterminate, `operator()` retries
with fresh random rays from the same origin with no retry-count ceiling:
if the first determinate retry is at index `k0` with verdict `r`, the call
returns exactly `r` whenever allowed past `k0` traversals and is still
running at any smaller allowance — the verdict depends only on that final
determinate status, every prior indeterminate traversal being discarded —
and if no retry is ever determinate the loop never returns. -/
theorem retry_loop_semantics :
    (∀ (tree : AABBTree) (rnd : RandomSource) (p : Point) (k0 : ℕ)
        (r : BoundedSide),
        outsideBbox p tree.bbox = false →
        verticalRes tree p = none →
        (∀ k, k < k0 → retryRes tree rnd p k = none) →
        retryRes tree rnd p k0 = some r →
        (∀ fuel, k0 < fuel → classify tree rnd p fuel = some r) ∧
        (∀ fuel, fuel ≤ k0 → classify tree rnd p fuel = none)) ∧
    (∀ (tree : AABBTree) (rnd : RandomSource) (p : Point),
        outsideBbox p tree.bbox = false →
        verticalRes tree p = none →
        (∀ k, retryRes tree rnd p k = none) →
        ∀ fuel, classify tree rnd p fuel = none) := by
  constructor
  · intro tree rnd p k0 r hout hv hnone hdet
    constructor
    · intro fuel hfuel
      rw [classify_eq_retryLoop tree rnd p fuel hout hv]
      exact retryLoop_first_determinate tree rnd p k0 r fuel 0 (by omega)
        (fun k _ hk => hnone k hk) hdet (by omega)
    · intro fuel hfuel
      rw [classify_eq_retryLoop tree rnd p fuel hout hv]
      exact retryLoop_all_indeterminate tree rnd p fuel 0
        (fun k _ hk => hnone k (by omega))
  · intro tree rnd p hout hv hnone fuel
    rw [classify_eq_retryLoop tree rnd p fuel hout hv]
    exact retryLoop_all_indeterminate tree rnd p fuel 0 (fun k _ _ => hnone k)

/-- Witness for C5 on `exTree`: the vertical probe and retry 0 are
indeterminate, retry 1 is determinate with odd crossing count, so the call
returns `ON_BOUNDED_SIDE` once two retries are allowed and is still running
after one. -/
theorem retry_loop_semantics_witness :
    classify exTree exRnd exP 2 = some ON_BOUNDED_SIDE ∧
    classify exTree exRnd exP 1 = none := by
  have h := retry_loop_semantics.1 exTree exRnd exP 1 ON_BOUNDED_SIDE
    (by decide) (by decide) (by decide) (by decide)
  exact ⟨h.1 2 (by decide), h.2 1 (by decide)⟩

/-- The `i`-th direction consumed by a retry loop started at index `k` is
stream position `k + i` of the fixed seed. -/
theorem retryLoop_dirs (tree : AABBTree) (rnd : RandomSource) (p : Point) :
    ∀ fuel k i d,
      (retryDirsOf (retryLoop tree rnd p fuel k).2).get? i = some d →
      d = retryDir rnd (k + i) := by
  intro fuel
  induction fuel with
  | zero => intro k i d h; simp [retryLoop, retryDirsOf] at h
  | succ n ih =>
      intro k i d h
      cases hres : retryRes tree rnd p k with
      | some r =>
          simp only [retryLoop, hres, retryDirsOf, List.filter,
            Bool.not_false, List.map] at h
          cases i with
          | zero =>
              simp at h
              exact h.symm
          | succ j => simp at h
      | none =>
          simp only [retryLoop, hres, retryDirsOf, List.filter,
            Bool.not_false, List.map] at h
          cases i with
          | zero =>
              simp at h
              simp [h]
          | succ j =>
              have := ih (k + 1) j d (by simpa [retryDirsOf] using h)
              rw [this]
              congr 1
              omega

/-- Counterexample to claim C2 as stated: under the shared, seeded-once
generator the spec describes (`runTracesShared`, modelled from the spec),
the second query of a run would continue the stream where the first query
left it; the source (`runTraces`) restarts every query at stream position 0
because `CGAL::Random rg(seed)` is constructed inside `operator()`.  On a
concrete two-query run the two traces differ. -/
theorem seed_reseeded_per_query :
    runTraces exRnd 2 [(exTree2, exP), (exTree2, exP)] ≠
      runTracesShared exRnd 2 0 [(exTree2, exP), (exTree2, exP)] := by
  decide

/-- Claim C2 (amended): the generator is constructed afresh inside each call
with the same fixed constant seed, so the `i`-th retry direction of every
call of `classify` is stream position `i` of that seed — identical for every
call and every run — and the trace of the last query of a run depends only
on that query, not on the queries before it. -/
theorem retry_dirs_per_call_fixed :
    (∀ (tree : AABBTree) (rnd : RandomSource) (p : Point) (fuel i : ℕ)
        (d : Vec),
        (retryDirsOf (classifyT tree rnd p fuel).2).get? i = some d →
        d = retryDir rnd i) ∧
    (∀ (rnd : RandomSource) (fuel : ℕ) (qs : List (AABBTree × Point))
        (q : AABBTree × Point),
        (runTraces rnd fuel (qs ++ [q])).getLast? =
          some (retryDirsOf (classifyT q.1 rnd q.2 fuel).2)) := by
  constructor
  · intro tree rnd p fuel i d h
    by_cases hout : outsideBbox p tree.bbox
    · simp [classifyT, hout, retryDirsOf] at h
    · cases hv : verticalRes tree p with
      | some r =>
          simp [classifyT, hout, hv, retryDirsOf, List.filter] at h
      | none =>
          have h' : (retryDirsOf (retryLoop tree rnd p fuel 0).2).get? i =
              some d := by
            simpa [classifyT, hout, hv, retryDirsOf, List.filter] using h
          have := retryLoop_dirs tree rnd p fuel 0 i d h'
          simpa using this
  · intro rnd fuel qs q
    unfold runTraces
    rw [List.map_append]
    rw [List.map_singleton, List.getLast?_append_cons]
    rfl

/-- Witness for C2 (amended): on `exTree` the call with fuel 2 consumes two
retry directions and the second one is stream position 1 of the fixed
seed. -/
theorem retry_dirs_per_call_fixed_witness :
    (⟨1, 0, 0⟩ : Vec) = retryDir exRnd 1 :=
  retry_dirs_per_call_fixed.1 exTree exRnd exP 2 1 ⟨1, 0, 0⟩ (by decide)

/-- From a false `label_has_ground_truth`, every cell of the label's
ground-truth column below `nl` is zero. -/
theorem no_ground_truth_col_zero (nl : ℕ) (conf : Conf) (idx : ℕ)
    (h : label_has_ground_truth nl conf idx = false) :
    ∀ i, i < nl → conf i idx = 0 := by
  intro i hi
  unfold label_has_ground_truth at h
  rw [List.any_eq_false] at h
  have := h i (List.mem_range.mpr hi)
  simpa using this

/-- Counterexample to claim C6 as stated: with two labels and one item of
ground truth 1 predicted as 0, label 0 has no ground-truth occurrences, yet
`intersection_over_union` returns 0 — its denominator counts the false
positive — not NaN. -/
theorem iou_without_ground_truth_not_nan :
    label_has_ground_truth 2 exConf 0 = false ∧
    intersection_over_union 2 exConf 0 = FloatVal.val 0 ∧
    FloatVal.val 0 ≠ FloatVal.nan := by
  have h1 : exConf 0 0 = 0 := by decide
  have h2 : iouTotal 2 exConf 0 = 1 := by decide
  refine ⟨by decide, ?_, by decide⟩
  unfold intersection_over_union
  rw [h1, h2]
  simp [fdiv]

/-- Claim C6 (amended): for a label (index below the label count) with no
ground-truth occurrences, `precision` and `recall` return NaN, while
`intersection_over_union` returns NaN only when the label also has no
predicted occurrences (zero denominator) and returns 0 otherwise. -/
theorem no_ground_truth_stats (nl : ℕ) (conf : Conf) (idx : ℕ)
    (hidx : idx < nl)
    (h : label_has_ground_truth nl conf idx = false) :
    precision nl conf idx = FloatVal.nan ∧
    «recall» nl conf idx = FloatVal.nan ∧
    (iouTotal nl conf idx = 0 →
      intersection_over_union nl conf idx = FloatVal.nan) ∧
    (iouTotal nl conf idx ≠ 0 →
      intersection_over_union nl conf idx = FloatVal.val 0) := by
  have hz : conf idx idx = 0 := no_ground_truth_col_zero nl conf idx h idx hidx
  refine ⟨?_, ?_, ?_, ?_⟩
  · unfold precision
    rw [if_pos h]
  · unfold «recall»
    rw [if_pos h]
  · intro ht
    unfold intersection_over_union
    rw [hz, ht]
    rfl
  · intro ht
    unfold intersection_over_union
    rw [hz]
    unfold fdiv
    rw [if_neg ht]
    norm_num

/-- Witness for C6 (amended) at label 0 of `exConf`. -/
theorem no_ground_truth_stats_witness :
    precision 2 exConf 0 = FloatVal.nan ∧
    «recall» 2 exConf 0 = FloatVal.nan ∧
    intersection_over_union 2 exConf 0 = FloatVal.val 0 := by
  have h := no_ground_truth_stats 2 exConf 0 (by decide) (by decide)
  exact ⟨h.1, h.2.1, h.2.2.2 (by decide)⟩

/-- Counterexample to claim C7 as stated: appending the equal-length,
elementwise-equal pair `([-1], [-1])` leaves the matrix empty, and
`accuracy` is NaN (`0 / 0.f`), not 1.0. -/
theorem accuracy_equal_sentinel_nan :
    accuracy 2 (appendConf initConf [-1] [-1]) = FloatVal.nan ∧
    FloatVal.nan ≠ FloatVal.val 1 := by
  refine ⟨by decide, by decide⟩

/-- `append` with equal index lists touches only the diagonal. -/
theorem appendConf_offdiag (i j : ℕ) (hij : i ≠ j) :
    ∀ (l : List ℤ) (c : Conf), appendConf c l l i j = c i j := by
  intro l
  induction l with
  | nil => intro c; rfl
  | cons g gs ih =>
      intro c
      simp only [appendConf]
      by_cases hg : g = -1
      · rw [if_pos (Or.inl hg)]
        exact ih c
      · rw [if_neg (by tauto)]
        rw [ih]
        unfold bump
        rw [if_neg (by rintro ⟨rfl, rfl⟩; exact hij rfl)]

/-- `append` never decreases a cell. -/
theorem appendConf_le :
    ∀ (gt res : List ℤ) (c : Conf) (i j : ℕ),
      c i j ≤ appendConf c gt res i j := by
  intro gt
  induction gt with
  | nil => intro res c i j; cases res <;> exact le_refl _
  | cons g gs ih =>
      intro res c i j
      cases res with
      | nil => exact le_refl _
      | cons r rs =>
          simp only [appendConf]
          by_cases h : g = -1 ∨ r = -1
          · rw [if_pos h]
            exact ih rs c i j
          · rw [if_neg h]
            calc c i j ≤ bump c r.toNat g.toNat i j := by
                  unfold bump; split <;> omega
              _ ≤ _ := ih rs _ i j

/-- A non-sentinel entry appended against itself strictly increases its
diagonal cell. -/
theorem appendConf_diag_lt :
    ∀ (l : List ℤ) (c : Conf) (x : ℤ), x ∈ l → x ≠ -1 →
      c x.toNat x.toNat < appendConf c l l x.toNat x.toNat := by
  intro l
  induction l with
  | nil => intro c x hx _; exact absurd hx (List.not_mem_nil x)
  | cons g gs ih =>
      intro c x hx hne
      simp only [appendConf]
      by_cases hg : g = -1
      · rw [if_pos (Or.inl hg)]
        have hx' : x ∈ gs := by
          rcases List.mem_cons.mp hx with h | h
          · exact absurd (h.trans hg) hne
          · exact h
        exact ih c x hx' hne
      · rw [if_neg (by tauto)]
        by_cases hxg : x = g
        · subst hxg
          have hb : c x.toNat x.toNat <
              bump c x.toNat x.toNat x.toNat x.toNat := by
            unfold bump
            rw [if_pos ⟨rfl, rfl⟩]
            omega
          exact lt_of_lt_of_le hb (appendConf_le gs gs _ _ _)
        · have hx' : x ∈ gs := by
            rcases List.mem_cons.mp hx with h | h
            · exact absurd h hxg
            · exact h
          have hb : c x.toNat x.toNat ≤
              bump c g.toNat g.toNat x.toNat x.toNat := by
            unfold bump; split <;> omega
          exact lt_of_le_of_lt hb (ih _ x hx' hne)

/-- Claim C7 (amended): if the two appended ranges are elementwise equal,
every entry is the sentinel `-1` or a valid label index, and at least one
entry is not the sentinel, then `accuracy` is exactly 1.0. -/
theorem accuracy_perfect (nl : ℕ) (l : List ℤ)
    (hb : ∀ x ∈ l, x = -1 ∨ (0 ≤ x ∧ x < (nl : ℤ)))
    (hex : ∃ x ∈ l, x ≠ -1) :
    accuracy nl (appendConf initConf l l) = FloatVal.val 1 := by
  have hoff : ∀ i j, i ≠ j → appendConf initConf l l i j = 0 := by
    intro i j hij
    rw [appendConf_offdiag i j hij l initConf]
    rfl
  have htot : totalItems nl (appendConf initConf l l) =
      truePositives nl (appendConf initConf l l) := by
    unfold totalItems truePositives
    refine Finset.sum_congr rfl ?_
    intro i hi
    refine Finset.sum_eq_single_of_mem i hi ?_
    intro j _ hji
    exact hoff i j (fun h => hji h.symm)
  obtain ⟨x, hxl, hxne⟩ := hex
  have hxb : 0 ≤ x ∧ x < (nl : ℤ) := (hb x hxl).resolve_left hxne
  have hxnat : x.toNat < nl := by omega
  have hpos : 0 < truePositives nl (appendConf initConf l l) := by
    have h1 : 0 < appendConf initConf l l x.toNat x.toNat := by
      have h2 := appendConf_diag_lt l initConf x hxl hxne
      simpa [initConf] using h2
    have hsub : ({x.toNat} : Finset ℕ) ⊆ Finset.range nl := by
      rw [Finset.singleton_subset_iff, Finset.mem_range]
      exact hxnat
    have h2 : appendConf initConf l l x.toNat x.toNat ≤
        truePositives nl (appendConf initConf l l) := by
      unfold truePositives
      calc appendConf initConf l l x.toNat x.toNat
          = ∑ i in ({x.toNat} : Finset ℕ), appendConf initConf l l i i := by
            simp
        _ ≤ ∑ i in Finset.range nl, appendConf initConf l l i i :=
            Finset.sum_le_sum_of_subset hsub
    omega
  unfold accuracy
  rw [htot]
  unfold fdiv
  rw [if_neg (by omega)]
  have hq : ((truePositives nl (appendConf initConf l l) : ℚ)) ≠ 0 := by
    exact_mod_cast Nat.pos_iff_ne_zero.mp hpos
  rw [div_self hq]

/-- Witness for C7 (amended): two labels, appended lists `[0, 1, -1]`. -/
theorem accuracy_perfect_witness :
    accuracy 2 (appendConf initConf [0, 1, -1] [0, 1, -1]) =
      FloatVal.val 1 :=
  accuracy_perfect 2 [0, 1, -1] (by decide) (by decide)

/-- Every access recorded by `appendAccesses` comes from a non-sentinel
pair of entries of the two ranges. -/
theorem appendAccesses_mem :
    ∀ (gt res : List ℤ) (a : ℤ × ℤ), a ∈ appendAccesses gt res →
      (a.2 ∈ gt ∧ a.2 ≠ -1) ∧ (a.1 ∈ res ∧ a.1 ≠ -1) := by
  intro gt
  induction gt with
  | nil => intro res a h; cases res <;> simp [appendAccesses] at h
  | cons g gs ih =>
      intro res a h
      cases res with
      | nil => simp [appendAccesses] at h
      | cons r rs =>
          simp only [appendAccesses] at h
          by_cases hc : g = -1 ∨ r = -1
          · rw [if_pos hc] at h
            have hm := ih rs a h
            exact ⟨⟨List.mem_cons_of_mem g hm.1.1, hm.1.2⟩,
              ⟨List.mem_cons_of_mem r hm.2.1, hm.2.2⟩⟩
          · rw [if_neg hc] at h
            push_neg at hc
            rcases List.mem_cons.mp h with rfl | h'
            · exact ⟨⟨List.mem_cons_self g gs, hc.1⟩,
                ⟨List.mem_cons_self r rs, hc.2⟩⟩
            · have hm := ih rs a h'
              exact ⟨⟨List.mem_cons_of_mem g hm.1.1, hm.1.2⟩,
                ⟨List.mem_cons_of_mem r hm.2.1, hm.2.2⟩⟩

/-- Claim C9: under the precondition that every index of both ranges is `-1`
or a non-negative integer below the label count, every confusion-matrix
access of `append` is in bounds; and no other filtering occurs — with two
labels, `ground_truth = [0]`, `result = [5]` still produces the access
`(5, 0)`, whose row index 5 is out of bounds. -/
theorem append_no_bounds_check :
    (∀ (nl : ℕ) (gt res : List ℤ),
        (∀ x ∈ gt, x = -1 ∨ (0 ≤ x ∧ x < (nl : ℤ))) →
        (∀ x ∈ res, x = -1 ∨ (0 ≤ x ∧ x < (nl : ℤ))) →
        ∀ a ∈ appendAccesses gt res,
          0 ≤ a.1 ∧ a.1 < (nl : ℤ) ∧ 0 ≤ a.2 ∧ a.2 < (nl : ℤ)) ∧
    ((5, 0) ∈ appendAccesses [0] [5] ∧ ¬ ((5 : ℤ) < ((2 : ℕ) : ℤ))) := by
  constructor
  · intro nl gt res hgt hres a ha
    have hm := appendAccesses_mem gt res a ha
    have h1 := (hres a.1 hm.2.1).resolve_left hm.2.2
    have h2 := (hgt a.2 hm.1.1).resolve_left hm.1.2
    exact ⟨h1.1, h1.2, h2.1, h2.2⟩
  · exact ⟨by decide, by decide⟩

/-- Witness for C9's bounded part at `nl = 2`, `ground_truth = [1]`,
`result = [0]`, access `(0, 1)`. -/
theorem append_no_bounds_check_witness :
    (0 : ℤ) ≤ 0 ∧ (0 : ℤ) < ((2 : ℕ) : ℤ) ∧
    (0 : ℤ) ≤ 1 ∧ (1 : ℤ) < ((2 : ℕ) : ℤ) :=
  append_no_bounds_check.1 2 [1] [0] (by decide) (by decide) (0, 1)
    (by decide)

/-- Claim C10: `read_las_point_set` returns `true` on every input. -/
theorem read_las_always_true :
    ∀ input : List LasPoint, (read_las_point_set input).2 = true :=
  fun _ => rfl

end CGALSpec
